import Mathlib

/-!
# Verification of `OpenPNM/Base/__ModelsDict__.py`

A shallow embedding of the `ModelsDict` registry (an `OrderedDict` subclass)
and its inner `GenericModel` entries, together with proofs about `add`,
`regenerate`, `reorder` and item assignment.

Modelling conventions:
* Python ordered dictionaries (`dict`, `OrderedDict`, and the `GenericModel`
  entries, which are `dict` subclasses) are embedded as association lists with
  the key at the first occurrence; assignment to an existing key replaces the
  value in place, assignment to a fresh key appends (CPython's documented
  insertion-order semantics).
* Python exceptions are embedded with `Except PyErr`; a function that can
  raise returns `Except PyErr _` and callers propagate errors exactly where
  the Python control flow would.
* Model functions (the values stored under the `'model'` key) are drawn from
  an abstract type `F` together with an application function
  `app : F → Entry F → Master F → Except PyErr (PyVal F)`.  The second
  argument is the full keyword dictionary the source passes via
  `self['model'](**self)`; the third is the master's current property store,
  which Python models reach through the bound `network`/`phase`/... object
  references, and which the embedding therefore passes explicitly.
-/

set_option autoImplicit false

/-- Embedded Python exception kinds raised by the code under study. -/
inductive PyErr where
  | typeError
  | keyError
  | valueError
  | attrError
  | indexError
  deriving DecidableEq, Repr

/-- Identity of the Python objects that can be bound as model context.
`registrySelf` is the `ModelsDict` instance itself (the `self` of its
methods); `masterObj` is the host object stored in `self._master`. -/
inductive ObjRef where
  | registrySelf
  | masterObj
  deriving DecidableEq, Repr

/-- Embedded Python values stored in dictionaries: `None`, numbers, strings,
object references, and callables (model functions drawn from `F`). -/
inductive PyVal (F : Type) where
  | none
  | int (n : Int)
  | str (s : String)
  | obj (o : ObjRef)
  | fn (f : F)
  deriving DecidableEq, Repr

/-- A `GenericModel` entry: a Python dict from argument name to value. -/
abbrev Entry (F : Type) := List (String × PyVal F)

/-- The master's property store (`self._master`), a dict of property values. -/
abbrev Master (F : Type) := List (String × PyVal F)

/-- The `ModelsDict` contents: an ordered dict from property name to entry. -/
abbrev Registry (F : Type) := List (String × Entry F)

/-- Application of an abstract model function: receives the keyword dict the
source passes with `self['model'](**self)` and the master's current store. -/
abbrev App (F : Type) := F → Entry F → Master F → Except PyErr (PyVal F)

/-- Python dict lookup `d[k]` (first occurrence of the key). -/
def dictLookup {K : Type} [DecidableEq K] {α : Type} : List (K × α) → K → Option α
  | [], _ => Option.none
  | (k', v) :: rest, k => if k' = k then some v else dictLookup rest k

/-- Python dict assignment `d[k] = v`: replace in place if the key exists,
otherwise append at the end (insertion-order semantics). -/
def dictSet {K : Type} [DecidableEq K] {α : Type} : List (K × α) → K → α → List (K × α)
  | [], k, v => [(k, v)]
  | (k', v') :: rest, k, v =>
    if k' = k then (k, v) :: rest else (k', v') :: dictSet rest k v

/-- Python `d.update(**e)`: assign every pair of `e` into `d`, in order. -/
def pyUpdate {K : Type} [DecidableEq K] {α : Type} (d e : List (K × α)) : List (K × α) :=
  e.foldl (fun acc p => dictSet acc p.1 p.2) d

/-- The keys of a registry in order, `list(self.keys())`. -/
def regKeys {F : Type} (reg : Registry F) : List String := reg.map Prod.fst

/-- Remove the first occurrence of `k` (the mutation done by Python's
`list.remove` when the element is present). -/
def removeFirst : List String → String → List String
  | [], _ => []
  | x :: rest, k => if x = k then rest else x :: removeFirst rest k

/-- Python `list.remove(x)`: drop the first occurrence, `ValueError` if the
element is absent. -/
def pyRemove (l : List String) (x : String) : Except PyErr (List String) :=
  if x ∈ l then .ok (removeFirst l x) else .error .valueError

/-- Insert at a clamped non-negative position (appends when the position is
beyond the end, as Python's `list.insert` does). -/
def insertAtNat {α : Type} : List α → Nat → α → List α
  | l, 0, x => x :: l
  | [], _ + 1, x => [x]
  | a :: l, n + 1, x => a :: insertAtNat l n x

/-- Python `list.insert(i, x)`: a negative index counts from the end and is
clamped to 0; an index past the end appends.  Never raises. -/
def pyInsertIdx {α : Type} (l : List α) (i : Int) (x : α) : List α :=
  let n : Int := (l.length : Int)
  let j : Int := if i < 0 then max (n + i) 0 else min i n
  insertAtNat l j.toNat x

/-- The dict comprehension `{v: k for k, v in new_order.items()}` from
`reorder`: later assignments to the same key overwrite the value but keep the
key's first-insertion position, and iteration follows insertion order. -/
def invDict (no : List (String × Int)) : List (Int × String) :=
  no.foldl (fun acc p => dictSet acc p.2 p.1) []

/-- `OrderedDict.move_to_end(k)`: move the existing entry with key `k` to the
last position, `KeyError` if the key is absent. -/
def moveToEnd {α : Type} : List (String × α) → String → Except PyErr (List (String × α))
  | [], _ => .error .keyError
  | (k', v) :: rest, k =>
    if k' = k then .ok (rest ++ [(k', v)])
    else match moveToEnd rest k with
      | .error e => .error e
      | .ok r => .ok ((k', v) :: r)

/-- `GenericModel.__call__`: `return self['model'](**self)` — the entry's
whole key/value set is handed to the stored callable as keyword arguments.
A missing `'model'` key is a `KeyError`; a non-callable value a `TypeError`. -/
def GenericModel.call {F : Type} (app : App F) (g : Entry F) (m : Master F) :
    Except PyErr (PyVal F) :=
  match dictLookup g "model" with
  | some (.fn f) => app f g m
  | some _ => .error .typeError
  | Option.none => .error .keyError

/-- `GenericModel.regenerate`: `return self['model'](**self)`, the same body
as `__call__`. -/
def GenericModel.regenerate {F : Type} (app : App F) (g : Entry F) (m : Master F) :
    Except PyErr (PyVal F) :=
  match dictLookup g "model" with
  | some (.fn f) => app f g m
  | some _ => .error .typeError
  | Option.none => .error .keyError

/-- `ModelsDict.__setitem__(propname, model)`: build
`GenericModel(propname=propname, model=None)`, then `temp.update(**model)`,
then store under `propname` with ordinary ordered-dict assignment. -/
def ModelsDict.setitem {F : Type} (reg : Registry F) (propname : String) (model : Entry F) :
    Registry F :=
  let temp : Entry F := [("propname", .str propname), ("model", .none)]
  let temp := pyUpdate temp model
  dictSet reg propname temp

/-- The method resolution order names of `ModelsDict` itself:
`[item.__name__ for item in self.__class__.__mro__]` evaluated on a
`ModelsDict` instance (the class extends `OrderedDict`, which is implemented
on top of `dict`). -/
def modelsDictMRO : List String := ["ModelsDict", "OrderedDict", "dict", "object"]

/-- The host attributes the role branches of `add` read from `self`:
`self._net` and `self._phases`.  `ModelsDict` defines neither, so reading
them raises `AttributeError` (modelled by `Option.none` / `[]`). -/
structure HostAttrs (F : Type) where
  net : Option (PyVal F)
  phases : List (PyVal F)

/-- The attributes of a plain `ModelsDict` instance: no `_net`, no `_phases`. -/
def modelsDictAttrs {F : Type} : HostAttrs F := ⟨Option.none, []⟩

/-- The four context references `add` binds into a new entry. -/
structure Ctx (F : Type) where
  network : PyVal F
  phase : PyVal F
  geometry : PyVal F
  physics : PyVal F
  deriving DecidableEq, Repr

/-- Lines 171–188 of the source: inspect `selfType` (the MRO names of the
object the method runs on) and bind `network`/`phase`/`geometry`/`physics`.
Reading an absent `_net` raises `AttributeError`; `self._phases[0]` on an
empty list raises `IndexError`. -/
def resolveContext {F : Type} (selfType : List String) (selfRef : PyVal F)
    (attrs : HostAttrs F) : Except PyErr (Ctx F) :=
  if "GenericGeometry" ∈ selfType then
    match attrs.net with
    | some n => .ok ⟨n, .none, selfRef, .none⟩
    | Option.none => .error .attrError
  else if "GenericPhase" ∈ selfType then
    match attrs.net with
    | some n => .ok ⟨n, selfRef, .none, .none⟩
    | Option.none => .error .attrError
  else if "GenericPhysics" ∈ selfType then
    match attrs.net with
    | some n =>
      match attrs.phases with
      | p :: _ => .ok ⟨n, p, .none, selfRef⟩
      | [] => .error .indexError
    | Option.none => .error .attrError
  else
    .ok ⟨selfRef, .none, .none, .none⟩

/-- Calling a plain Python `dict` object, as line 195 does with `f()`: `f` is
the dict literal built on line 190, not a `GenericModel`, and plain dicts are
not callable, so the call raises `TypeError` unconditionally. -/
def pyCallDict {F : Type} (_f : Entry F) : Except PyErr (PyVal F) :=
  .error .typeError

/-- `ModelsDict.add(propname, model, regen_mode, **kwargs)`.  The role
dispatch inspects `self.__class__.__mro__` — the MRO of the `ModelsDict`
instance itself — then the keyword dict `f` is built and, per `regen_mode`,
stored via `self[propname] = f` or (for `'constant'`) evaluated as `f()`. -/
def ModelsDict.add {F : Type} (reg : Registry F) (master : Master F)
    (propname : String) (model : F) (regen_mode : String) (kwargs : Entry F) :
    Except PyErr (Registry F × Master F) :=
  match resolveContext modelsDictMRO (PyVal.obj .registrySelf) (modelsDictAttrs (F := F)) with
  | .error e => .error e
  | .ok ctx =>
    let f : Entry F :=
      pyUpdate [("model", .fn model), ("network", ctx.network), ("phase", ctx.phase),
                ("geometry", ctx.geometry), ("physics", ctx.physics),
                ("regen_mode", .str regen_mode)] kwargs
    let st1 : Registry F × Master F :=
      if regen_mode = "static" then (ModelsDict.setitem reg propname f, master)
      else (reg, master)
    if regen_mode = "constant" then
      match pyCallDict f with
      | .error e => .error e
      | .ok v => .ok (st1.1, dictSet st1.2 propname v)
    else
      if regen_mode = "deferred" ∨ regen_mode = "on_demand" then
        .ok (ModelsDict.setitem st1.1 propname f, st1.2)
      else
        .ok st1

/-- The Python comparison `x == 'on_demand'`: true exactly for the equal
string, false for every value of another type. -/
def isOnDemand {F : Type} : PyVal F → Bool
  | .str s => s == "on_demand"
  | _ => false

theorem removeFirst_length_of_mem {l : List String} {k : String} (h : k ∈ l) :
    (removeFirst l k).length + 1 = l.length := by
  induction l with
  | nil => cases h
  | cons x rest ih =>
    by_cases hx : x = k
    · simp [removeFirst, hx]
    · have hk : k ∈ rest := by
        cases h with
        | head => exact absurd rfl hx
        | tail _ h' => exact h'
      simp [removeFirst, hx, ← ih hk]

/-- Lines 102–106 of `regenerate`: `props = list(self.keys())`, then
`for item in props: if self[item]['regen_mode'] == 'on_demand': props.remove(item)`.
Python's `for` walks the list by an internal cursor while `remove` shifts the
remaining elements left, so removing the element under the cursor makes the
loop skip the element that follows it.  `i` is the cursor; `self[item]` or a
missing `'regen_mode'` key would raise `KeyError`. -/
def onDemandFilterAux {F : Type} (reg : Registry F) :
    Nat → List String → Nat → Except PyErr (List String)
  | 0, l, _ => .ok l
  | fuel + 1, l, i =>
    if h : i < l.length then
      let item := l.get ⟨i, h⟩
      match dictLookup reg item with
      | Option.none => .error .keyError
      | some g =>
        match dictLookup g "regen_mode" with
        | Option.none => .error .keyError
        | some v =>
          if isOnDemand v then onDemandFilterAux reg fuel (removeFirst l item) (i + 1)
          else onDemandFilterAux reg fuel l (i + 1)
    else .ok l

/-- The loop of lines 104–106 run to completion from cursor `0`.  The cursor
grows by one per step while the list never grows, so the loop's guard
`i < len(props)` can hold for at most the initial length many steps; with
that much fuel the cut-off case of `onDemandFilterAux` is never the one that
returns, and the fuel recursion computes exactly the Python loop. -/
def onDemandFilter {F : Type} (reg : Registry F) (l : List String) :
    Except PyErr (List String) :=
  onDemandFilterAux reg l.length l 0

/-- How `regenerate` receives its `props` argument: the default `''`, another
bare string, or a list of names (`if props == ''` / `elif type(props) == str`). -/
inductive PropsArg where
  | str (s : String)
  | list (l : List String)
  deriving DecidableEq, Repr

/-- Lines 115–122 of `regenerate`: walk the selected names in order; a name
present in the registry is invoked via its entry's `regenerate` and the result
assigned into the master (and the step logged — the returned trace); a missing
name is only warned about and skipped; an exception from the model stops the
loop at once, keeping the master writes already made. -/
def execLoop {F : Type} (app : App F) (reg : Registry F) :
    List String → Master F → Master F × List String × Option PyErr
  | [], m => (m, [], Option.none)
  | item :: rest, m =>
    match dictLookup reg item with
    | some g =>
      match GenericModel.regenerate app g m with
      | .error e => (m, [], some e)
      | .ok v =>
        let r := execLoop app reg rest (dictSet m item v)
        (r.1, item :: r.2.1, r.2.2)
    | Option.none => execLoop app reg rest m

/-- `ModelsDict.regenerate(props, mode)`: build the selection (defaulted
selection filters `on_demand` entries with the skipping loop; `'exclude'`
complements against the registry keys with `list.remove`, which raises
`ValueError` on an unknown name), then run the execution loop.  The result is
the master after the writes performed, the ordered trace of regenerated names,
and the propagated exception if one was raised. -/
def ModelsDict.regenerate {F : Type} (app : App F) (reg : Registry F) (m : Master F)
    (props : PropsArg) (mode : String) : Master F × List String × Option PyErr :=
  let propsE : Except PyErr (List String) :=
    match props with
    | .str s => if s = "" then onDemandFilter reg (regKeys reg) else .ok [s]
    | .list l => .ok l
  match propsE with
  | .error e => (m, [], some e)
  | .ok props0 =>
    let propsE2 : Except PyErr (List String) :=
      if mode = "exclude" then props0.foldlM (fun acc k => pyRemove acc k) (regKeys reg)
      else .ok props0
    match propsE2 with
    | .error e => (m, [], some e)
    | .ok props1 => execLoop app reg props1 m

/-- `ModelsDict.reorder(new_order)`: list the keys, `remove` each supplied
name, insert the names back via the inverse dict (iterated in its insertion
order), then `move_to_end` every name of the rebuilt sequence. -/
def ModelsDict.reorder {F : Type} (reg : Registry F) (new_order : List (String × Int)) :
    Except PyErr (Registry F) :=
  match new_order.foldlM (fun acc p => pyRemove acc p.1) (regKeys reg) with
  | .error e => .error e
  | .ok order1 =>
    let order2 := (invDict new_order).foldl (fun acc p => pyInsertIdx acc p.1 p.2) order1
    order2.foldlM (fun r k => moveToEnd r k) reg

/-! ## A concrete model library for evaluating the code on explicit inputs -/

/-- Concrete model functions: a constant, a model reading one of the master's
current property values, and a model that raises. -/
inductive CModel where
  | constInt (n : Int)
  | readKeyPlus (k : String) (n : Int)
  | fail
  deriving DecidableEq, Repr

/-- Interpreter for `CModel`: `constInt n` returns `n`; `readKeyPlus k n`
reads the master's current value at `k` (as a model reads it through its
bound object references) and adds `n`; `fail` raises. -/
def capp : App CModel := fun f _kwargs master =>
  match f with
  | .constInt n => .ok (.int n)
  | .readKeyPlus k n =>
    match dictLookup master k with
    | some (.int v) => .ok (.int (v + n))
    | _ => .error .keyError
  | .fail => .error .valueError

/-- The entry `add(propname, model, regen_mode)` stores (no extra kwargs), as
wrapped by `__setitem__`. -/
def entryOf (p : String) (f : CModel) (mode : String) : Entry CModel :=
  [("propname", .str p), ("model", .fn f), ("network", .obj .registrySelf),
   ("phase", .none), ("geometry", .none), ("physics", .none),
   ("regen_mode", .str mode)]

/-- Registry with two consecutive `on_demand` entries followed by a static
one. -/
def regC2 : Registry CModel :=
  [("p.od1", entryOf "p.od1" (.constInt 11) "on_demand"),
   ("p.od2", entryOf "p.od2" (.constInt 22) "on_demand"),
   ("p.st", entryOf "p.st" (.constInt 33) "static")]

/-- Master store matching `regC2`, all values initially `0`. -/
def mC2 : Master CModel := [("p.od1", .int 0), ("p.od2", .int 0), ("p.st", .int 0)]

/-- Registry whose second model reads the first property's current value, so
the order in which the two are regenerated is observable in the master. -/
def regC3 : Registry CModel :=
  [("p.a", entryOf "p.a" (.constInt 5) "static"),
   ("p.b", entryOf "p.b" (.readKeyPlus "p.a" 1) "static")]

/-- Master store matching `regC3`, all values initially `0`. -/
def mC3 : Master CModel := [("p.a", .int 0), ("p.b", .int 0)]

/-- The registry of the `reorder` docstring example:
`['pore.seed', 'throat.seed', 'throat.length']`. -/
def regC4 : Registry CModel :=
  [("pore.seed", entryOf "pore.seed" (.constInt 1) "static"),
   ("throat.seed", entryOf "throat.seed" (.constInt 2) "static"),
   ("throat.length", entryOf "throat.length" (.constInt 3) "static")]

/-- Registry whose middle model raises when invoked. -/
def regC7 : Registry CModel :=
  [("p.a", entryOf "p.a" (.constInt 1) "static"),
   ("p.b", entryOf "p.b" .fail "static"),
   ("p.c", entryOf "p.c" (.constInt 3) "static")]

/-- Master store matching `regC7`, all values initially `0`. -/
def mC7 : Master CModel := [("p.a", .int 0), ("p.b", .int 0), ("p.c", .int 0)]

/-- `mC7` after the successful regeneration of `p.a` alone. -/
def mC7a : Master CModel := [("p.a", .int 1), ("p.b", .int 0), ("p.c", .int 0)]

/-! ## General lemmas about the dictionary primitives and the loops -/

theorem regenerate_list_inclusive_eq {F : Type} (app : App F) (reg : Registry F)
    (m : Master F) (props : List String) :
    ModelsDict.regenerate app reg m (.list props) "inclusive" = execLoop app reg props m := rfl

theorem regenerate_list_exclude_eq {F : Type} (app : App F) (reg : Registry F)
    (m : Master F) (props : List String) :
    ModelsDict.regenerate app reg m (.list props) "exclude"
      = match props.foldlM (fun acc k => pyRemove acc k) (regKeys reg) with
        | .error e => (m, [], some e)
        | .ok props1 => execLoop app reg props1 m := rfl

theorem dictLookup_dictSet_self {K : Type} [DecidableEq K] {α : Type}
    (d : List (K × α)) (k : K) (v : α) :
    dictLookup (dictSet d k v) k = some v := by
  induction d with
  | nil => simp [dictSet, dictLookup]
  | cons p rest ih =>
    obtain ⟨k', v'⟩ := p
    by_cases h : k' = k
    · simp [dictSet, h, dictLookup]
    · simp [dictSet, h, dictLookup, ih]

theorem dictLookup_dictSet_ne {K : Type} [DecidableEq K] {α : Type}
    (d : List (K × α)) (k q : K) (v : α) (h : k ≠ q) :
    dictLookup (dictSet d k v) q = dictLookup d q := by
  induction d with
  | nil => simp [dictSet, dictLookup, h]
  | cons p rest ih =>
    obtain ⟨k', v'⟩ := p
    by_cases hk : k' = k
    · simp [dictSet, hk, dictLookup, h, hk ▸ h]
    · simp [dictSet, hk, dictLookup, ih]

theorem dictLookup_pyUpdate_not_mem {K : Type} [DecidableEq K] {α : Type}
    (e : List (K × α)) (d : List (K × α)) (q : K) (h : q ∉ e.map Prod.fst) :
    dictLookup (pyUpdate d e) q = dictLookup d q := by
  induction e generalizing d with
  | nil => rfl
  | cons p rest ih =>
    obtain ⟨k, v⟩ := p
    simp only [List.map, List.mem_cons, not_or] at h
    have step : pyUpdate d ((k, v) :: rest) = pyUpdate (dictSet d k v) rest := rfl
    rw [step, ih _ h.2, dictLookup_dictSet_ne _ _ _ _ (fun hkq => h.1 hkq.symm)]

theorem execLoop_trace_eq_filter {F : Type} (app : App F) (reg : Registry F) :
    ∀ (props : List String) (m : Master F),
      (execLoop app reg props m).2.2 = Option.none →
      (execLoop app reg props m).2.1
        = props.filter (fun k => (dictLookup reg k).isSome) := by
  intro props
  induction props with
  | nil => intro m _; rfl
  | cons item rest ih =>
    intro m h
    cases hg : dictLookup reg item with
    | none =>
      simp only [execLoop, hg] at h ⊢
      rw [List.filter_cons_of_neg (by simp [hg])]
      exact ih m h
    | some g =>
      cases hr : GenericModel.regenerate app g m with
      | error e => simp [execLoop, hg, hr] at h
      | ok v =>
        simp only [execLoop, hg, hr] at h ⊢
        rw [List.filter_cons_of_pos (by simp [hg])]
        exact congrArg (item :: ·) (ih _ h)

theorem execLoop_append {F : Type} (app : App F) (reg : Registry F) :
    ∀ (xs ys : List String) (m m1 : Master F) (tr : List String),
      execLoop app reg xs m = (m1, tr, Option.none) →
      execLoop app reg (xs ++ ys) m
        = ((execLoop app reg ys m1).1, tr ++ (execLoop app reg ys m1).2.1,
           (execLoop app reg ys m1).2.2) := by
  intro xs
  induction xs with
  | nil =>
    intro ys m m1 tr h
    simp only [execLoop, Prod.mk.injEq] at h
    obtain ⟨h1, h2, -⟩ := h
    subst h1; subst h2
    simp [execLoop]
  | cons item rest ih =>
    intro ys m m1 tr h
    cases hg : dictLookup reg item with
    | none =>
      simp only [execLoop, hg] at h ⊢
      exact ih ys m m1 tr h
    | some g =>
      cases hr : GenericModel.regenerate app g m with
      | error e => simp [execLoop, hg, hr] at h
      | ok v =>
        simp only [execLoop, hg, hr] at h ⊢
        rcases hre : execLoop app reg rest (dictSet m item v) with ⟨rm, rtr, rerr⟩
        rw [hre] at h
        simp only [Prod.mk.injEq] at h
        obtain ⟨h1, h2, h3⟩ := h
        subst h1; subst h3
        have H := ih ys (dictSet m item v) rm rtr (by rw [hre])
        simp only [List.append_eq]
        rw [H]
        simp [← h2]

theorem mem_of_mem_removeFirst {l : List String} {k y : String}
    (h : y ∈ removeFirst l k) : y ∈ l := by
  induction l with
  | nil => exact absurd h (List.not_mem_nil y)
  | cons a rest ih =>
    by_cases ha : a = k
    · simp only [removeFirst, if_pos ha] at h
      exact List.mem_cons_of_mem _ h
    · simp only [removeFirst, if_neg ha, List.mem_cons] at h
      cases h with
      | inl h => exact h ▸ List.mem_cons_self _ _
      | inr h => exact List.mem_cons_of_mem _ (ih h)

theorem mem_removeFirst_of_ne {l : List String} {k y : String} (hy : y ≠ k) :
    y ∈ removeFirst l k ↔ y ∈ l := by
  induction l with
  | nil => simp [removeFirst]
  | cons a rest ih =>
    by_cases ha : a = k
    · simp only [removeFirst, if_pos ha, List.mem_cons]
      constructor
      · exact Or.inr
      · rintro (h | h)
        · exact absurd (h.trans ha) hy
        · exact h
    · simp only [removeFirst, if_neg ha, List.mem_cons, ih]

theorem dictLookup_eq_none_of_not_mem {K : Type} [DecidableEq K] {α : Type}
    {d : List (K × α)} {q : K} (h : q ∉ d.map Prod.fst) :
    dictLookup d q = Option.none := by
  induction d with
  | nil => rfl
  | cons p rest ih =>
    obtain ⟨k, v⟩ := p
    simp only [List.map, List.mem_cons, not_or] at h
    have hk : ¬ k = q := fun hh => h.1 hh.symm
    simp [dictLookup, hk, ih h.2]

theorem removeFoldM_error {x : String} :
    ∀ (props : List String) (acc : List String), x ∈ props → x ∉ acc →
      props.foldlM (fun a k => pyRemove a k) acc = .error .valueError := by
  intro props
  induction props with
  | nil => intro acc h; cases h
  | cons p rest ih =>
    intro acc hx hna
    by_cases hp : p ∈ acc
    · have hpx : p ≠ x := fun hh => hna (hh ▸ hp)
      have hxrest : x ∈ rest := List.mem_of_ne_of_mem (fun hh => hpx hh.symm) hx
      have hnext : x ∉ removeFirst acc p := fun hh => hna (mem_of_mem_removeFirst hh)
      calc (p :: rest).foldlM (fun a k => pyRemove a k) acc
          = rest.foldlM (fun a k => pyRemove a k) (removeFirst acc p) := by
            simp [List.foldlM, pyRemove, hp]; rfl
        _ = .error .valueError := ih _ hxrest hnext
    · simp [List.foldlM, pyRemove, hp]; rfl

theorem dictSet_eq_append {K : Type} [DecidableEq K] {α : Type} {d : List (K × α)}
    {k : K} (v : α) (h : k ∉ d.map Prod.fst) : dictSet d k v = d ++ [(k, v)] := by
  induction d with
  | nil => rfl
  | cons q rest ih =>
    obtain ⟨k', v'⟩ := q
    simp only [List.map, List.mem_cons, not_or] at h
    have hk : ¬ k' = k := fun hh => h.1 hh.symm
    simp [dictSet, hk, ih h.2]

theorem pyUpdate_eq_append {K : Type} [DecidableEq K] {α : Type} :
    ∀ (e d : List (K × α)), (∀ q ∈ e.map Prod.fst, q ∉ d.map Prod.fst) →
      (e.map Prod.fst).Nodup → pyUpdate d e = d ++ e := by
  intro e
  induction e with
  | nil => intro d _ _; simp [pyUpdate]
  | cons q rest ih =>
    intro d hdisj hnd
    obtain ⟨k, v⟩ := q
    simp only [List.map_cons, List.nodup_cons] at hnd
    have hk : k ∉ d.map Prod.fst := hdisj k (by simp)
    have hdisj' : ∀ x ∈ rest.map Prod.fst, x ∉ (d ++ [(k, v)]).map Prod.fst := by
      intro x hx
      simp only [List.map_append, List.mem_append, List.map_cons, List.map_nil,
        List.mem_cons, List.not_mem_nil, or_false, not_or]
      exact ⟨hdisj x (by simp [hx]), fun hxk => hnd.1 (hxk ▸ hx)⟩
    have step : pyUpdate d ((k, v) :: rest) = pyUpdate (dictSet d k v) rest := rfl
    rw [step, dictSet_eq_append v hk, ih (d ++ [(k, v)]) hdisj' hnd.2]
    simp

theorem add_store_eq {F : Type} (reg : Registry F) (m : Master F) (p : String)
    (f : F) (mode : String) (kwargs : Entry F)
    (hmode : mode = "static" ∨ mode = "deferred" ∨ mode = "on_demand") :
    ModelsDict.add reg m p f mode kwargs
      = .ok (dictSet reg p (pyUpdate [("propname", PyVal.str p), ("model", PyVal.none)]
          (pyUpdate [("model", PyVal.fn f), ("network", PyVal.obj .registrySelf),
            ("phase", PyVal.none), ("geometry", PyVal.none), ("physics", PyVal.none),
            ("regen_mode", PyVal.str mode)] kwargs)), m) := by
  rcases hmode with h | h | h <;> subst h <;> rfl

theorem setitem_pyUpdate_base_eq {F : Type} (p : String) (f : F) (mode : String)
    (kwargs : Entry F) (hnd : (kwargs.map Prod.fst).Nodup)
    (hdisj : ∀ q ∈ kwargs.map Prod.fst,
      q ∉ (["propname", "model", "network", "phase", "geometry", "physics",
            "regen_mode"] : List String)) :
    pyUpdate [("propname", PyVal.str p), ("model", PyVal.none)]
        (pyUpdate [("model", PyVal.fn f), ("network", PyVal.obj .registrySelf),
          ("phase", PyVal.none), ("geometry", PyVal.none), ("physics", PyVal.none),
          ("regen_mode", PyVal.str mode)] kwargs)
      = [("propname", .str p), ("model", .fn f), ("network", .obj .registrySelf),
         ("phase", .none), ("geometry", .none), ("physics", .none),
         ("regen_mode", .str mode)] ++ kwargs := by
  have hd6 : ∀ q ∈ kwargs.map Prod.fst,
      q ∉ (([("model", PyVal.fn f), ("network", PyVal.obj .registrySelf),
        ("phase", PyVal.none), ("geometry", PyVal.none), ("physics", PyVal.none),
        ("regen_mode", PyVal.str mode)] : Entry F).map Prod.fst) := by
    intro q hq hmem
    apply hdisj q hq
    simp only [List.map_cons, List.map_nil] at hmem
    exact List.mem_cons_of_mem _ hmem
  have hd7 : ∀ q ∈ kwargs.map Prod.fst,
      q ∉ (([("propname", PyVal.str p), ("model", PyVal.fn f),
        ("network", PyVal.obj .registrySelf), ("phase", PyVal.none),
        ("geometry", PyVal.none), ("physics", PyVal.none),
        ("regen_mode", PyVal.str mode)] : Entry F).map Prod.fst) := by
    intro q hq hmem
    apply hdisj q hq
    simpa using hmem
  rw [pyUpdate_eq_append kwargs _ hd6 hnd]
  unfold pyUpdate
  rw [List.foldl_append]
  exact pyUpdate_eq_append kwargs _ hd7 hnd

theorem removeFoldM_ok :
    ∀ (no : List (String × Int)) (l : List String), (no.map Prod.fst).Nodup →
      (∀ q ∈ no.map Prod.fst, q ∈ l) →
      ∃ l', no.foldlM (fun acc q => pyRemove acc q.1) l = .ok l' ∧
        ∀ y ∈ l', y ∈ l := by
  intro no
  induction no with
  | nil => intro l _ _; exact ⟨l, rfl, fun y hy => hy⟩
  | cons q rest ih =>
    intro l hnd hex
    obtain ⟨k, i⟩ := q
    simp only [List.map_cons, List.nodup_cons] at hnd
    have hkl : k ∈ l := hex k (by simp)
    have hex' : ∀ x ∈ rest.map Prod.fst, x ∈ removeFirst l k := by
      intro x hx
      have hxk : x ≠ k := fun hh => hnd.1 (hh ▸ hx)
      exact (mem_removeFirst_of_ne hxk).mpr (hex x (by simp [hx]))
    obtain ⟨l', heq, hsub⟩ := ih (removeFirst l k) hnd.2 hex'
    refine ⟨l', ?_, fun y hy => mem_of_mem_removeFirst (hsub y hy)⟩
    calc ((k, i) :: rest).foldlM (fun acc q => pyRemove acc q.1) l
        = rest.foldlM (fun acc q => pyRemove acc q.1) (removeFirst l k) := by
          simp [List.foldlM, pyRemove, hkl]; rfl
      _ = .ok l' := heq

theorem mem_insertAtNat {α : Type} {y x : α} :
    ∀ (n : Nat) (l : List α), y ∈ insertAtNat l n x → y = x ∨ y ∈ l := by
  intro n
  induction n with
  | zero =>
    intro l h
    simp only [insertAtNat, List.mem_cons] at h
    exact h
  | succ n ih =>
    intro l h
    cases l with
    | nil =>
      simp only [insertAtNat, List.mem_cons, List.not_mem_nil, or_false] at h
      exact Or.inl h
    | cons a rest =>
      simp only [insertAtNat, List.mem_cons] at h
      rcases h with h | h
      · exact Or.inr (h ▸ List.mem_cons_self _ _)
      · rcases ih rest h with h | h
        · exact Or.inl h
        · exact Or.inr (List.mem_cons_of_mem _ h)

theorem mem_pyInsertIdx {α : Type} {y x : α} {l : List α} {i : Int}
    (h : y ∈ pyInsertIdx l i x) : y = x ∨ y ∈ l :=
  mem_insertAtNat _ l h

theorem insertFold_mem {y : String} :
    ∀ (pairs : List (Int × String)) (l : List String),
      y ∈ pairs.foldl (fun acc q => pyInsertIdx acc q.1 q.2) l →
      y ∈ l ∨ y ∈ pairs.map Prod.snd := by
  intro pairs
  induction pairs with
  | nil => intro l h; exact Or.inl h
  | cons q rest ih =>
    intro l h
    obtain ⟨i, v⟩ := q
    simp only [List.foldl_cons] at h
    rcases ih (pyInsertIdx l i v) h with h | h
    · rcases mem_pyInsertIdx h with h | h
      · exact Or.inr (by simp [h])
      · exact Or.inl h
    · exact Or.inr (List.mem_cons_of_mem _ h)

theorem mem_snd_dictSet {K : Type} [DecidableEq K] {α : Type} {y : α} :
    ∀ (d : List (K × α)) (k : K) (v : α),
      y ∈ (dictSet d k v).map Prod.snd → y = v ∨ y ∈ d.map Prod.snd := by
  intro d
  induction d with
  | nil =>
    intro k v h
    simp only [dictSet, List.map_cons, List.map_nil, List.mem_cons,
      List.not_mem_nil, or_false] at h
    exact Or.inl h
  | cons q rest ih =>
    intro k v h
    obtain ⟨k', v'⟩ := q
    by_cases hk : k' = k
    · simp only [dictSet, if_pos hk, List.map_cons, List.mem_cons] at h
      rcases h with h | h
      · exact Or.inl h
      · exact Or.inr (List.mem_cons_of_mem _ h)
    · simp only [dictSet, if_neg hk, List.map_cons, List.mem_cons] at h
      rcases h with h | h
      · exact Or.inr (by simp [h])
      · rcases ih k v h with h | h
        · exact Or.inl h
        · exact Or.inr (List.mem_cons_of_mem _ h)

theorem foldl_dictSet_snd_mem {y : String} :
    ∀ (no : List (String × Int)) (acc : List (Int × String)),
      y ∈ (no.foldl (fun a q => dictSet a q.2 q.1) acc).map Prod.snd →
      y ∈ acc.map Prod.snd ∨ y ∈ no.map Prod.fst := by
  intro no
  induction no with
  | nil => intro acc h; exact Or.inl h
  | cons q rest ih =>
    intro acc h
    obtain ⟨k, i⟩ := q
    simp only [List.foldl_cons] at h
    rcases ih (dictSet acc i k) h with h | h
    · rcases mem_snd_dictSet acc i k h with h | h
      · exact Or.inr (by simp [h])
      · exact Or.inl h
    · exact Or.inr (List.mem_cons_of_mem _ h)

theorem invDict_snd_mem {y : String} {no : List (String × Int)}
    (h : y ∈ (invDict no).map Prod.snd) : y ∈ no.map Prod.fst := by
  rcases foldl_dictSet_snd_mem no [] h with h | h
  · exact absurd h (by simp)
  · exact h

theorem moveToEnd_ok {α : Type} {k : String} :
    ∀ (d : List (String × α)), k ∈ d.map Prod.fst →
      ∃ d', moveToEnd d k = .ok d' ∧
        ∀ y, y ∈ d'.map Prod.fst ↔ y ∈ d.map Prod.fst := by
  intro d
  induction d with
  | nil => intro h; simp at h
  | cons q rest ih =>
    intro h
    obtain ⟨k', v⟩ := q
    by_cases hk : k' = k
    · refine ⟨rest ++ [(k', v)], by simp [moveToEnd, hk], ?_⟩
      intro y
      simp only [List.map_append, List.mem_append, List.map_cons, List.map_nil,
        List.mem_cons, List.not_mem_nil, or_false]
      tauto
    · have hrest : k ∈ rest.map Prod.fst := by
        simp only [List.map_cons, List.mem_cons] at h
        rcases h with h | h
        · exact absurd h.symm hk
        · exact h
      obtain ⟨r, hr, hiff⟩ := ih hrest
      refine ⟨(k', v) :: r, by simp [moveToEnd, hk, hr], ?_⟩
      intro y
      simp only [List.map_cons, List.mem_cons, hiff]

theorem moveFoldM_ok {α : Type} :
    ∀ (order : List String) (d : List (String × α)),
      (∀ k ∈ order, k ∈ d.map Prod.fst) →
      ∃ d', order.foldlM (fun r k => moveToEnd r k) d = .ok d' ∧
        ∀ y, y ∈ d'.map Prod.fst ↔ y ∈ d.map Prod.fst := by
  intro order
  induction order with
  | nil => intro d _; exact ⟨d, rfl, fun y => Iff.rfl⟩
  | cons k rest ih =>
    intro d hex
    obtain ⟨d1, hd1, hiff1⟩ := moveToEnd_ok d (hex k (by simp))
    have hex' : ∀ x ∈ rest, x ∈ d1.map Prod.fst := fun x hx =>
      (hiff1 x).mpr (hex x (by simp [hx]))
    obtain ⟨d', hd', hiff'⟩ := ih d1 hex'
    refine ⟨d', ?_, fun y => (hiff' y).trans (hiff1 y)⟩
    calc (k :: rest).foldlM (fun r q => moveToEnd r q) d
        = rest.foldlM (fun r q => moveToEnd r q) d1 := by
          simp [List.foldlM, hd1]; rfl
      _ = .ok d' := hd'

/-! ## Claim theorems -/

/-- C1: the claim says `add(p, m, 'constant')` immediately computes the model
and writes the result into the master under `p`.  The code instead evaluates
`f()` on line 195, where `f` is the plain dict built on line 190 — plain
dicts are not callable, so every `'constant'` add raises `TypeError` and
neither the master nor the registry is written. -/
theorem add_constant_raises_typeError {F : Type} (reg : Registry F)
    (m : Master F) (p : String) (f : F) (kwargs : Entry F) :
    ModelsDict.add reg m p f "constant" kwargs = .error .typeError := rfl

/-- C2: the claim says a defaulted `regenerate()` removes every `on_demand`
key from the selection and leaves their master values unchanged.  On a
registry with two consecutive `on_demand` entries the removal loop (which
mutates the list it iterates) skips the second one: `p.od2` has
`regen_mode == 'on_demand'`, yet it is selected, regenerated, and its master
value overwritten (`0` becomes `22`). -/
theorem regenerate_default_runs_skipped_on_demand :
    (dictLookup regC2 "p.od2").bind (fun g => dictLookup g "regen_mode")
      = some (.str "on_demand") ∧
    ModelsDict.regenerate capp regC2 mC2 (.str "") "inclusive"
      = ([("p.od1", .int 0), ("p.od2", .int 22), ("p.st", .int 33)],
         ["p.od2", "p.st"], Option.none) := ⟨rfl, rfl⟩

/-- C4: the claim (and the source's own docstring example) says
`reorder({'pore.seed': 1, 'throat.length': 0})` on
`['pore.seed', 'throat.seed', 'throat.length']` yields
`['throat.length', 'pore.seed', 'throat.seed']`.  The code iterates the
inverse dict in its insertion order (index 1 before index 0), not in
ascending index order, producing `['throat.length', 'throat.seed',
'pore.seed']` instead. -/
theorem reorder_ignores_ascending_index_order :
    (ModelsDict.reorder regC4 [("pore.seed", 1), ("throat.length", 0)]).map regKeys
      = .ok ["throat.length", "throat.seed", "pore.seed"] ∧
    (["throat.length", "throat.seed", "pore.seed"] : List String)
      ≠ ["throat.length", "pore.seed", "throat.seed"] := ⟨rfl, by decide⟩

/-- C6: the claim says the context bound by `add` is determined by the
Master's role, with an unrecognized role binding `network = Master`.  The
dispatch on line 172 inspects `self.__class__.__mro__` of the `ModelsDict`
itself, whose MRO names never include the host class names, so for every
master and every host attribute set it falls to the default branch and binds
`network` to the `ModelsDict` instance itself — not the Master — and
`phase = geometry = physics = None`, without raising. -/
theorem add_context_ignores_master_role {F : Type} (r : PyVal F)
    (attrs : HostAttrs F) (reg : Registry F) (m : Master F) (p : String) (f : F) :
    resolveContext modelsDictMRO r attrs = .ok ⟨r, .none, .none, .none⟩ ∧
    ∃ g, ModelsDict.add reg m p f "static" [] = .ok (ModelsDict.setitem reg p g, m) ∧
      dictLookup g "network" = some (.obj .registrySelf) ∧
      dictLookup g "phase" = some .none ∧
      dictLookup g "geometry" = some .none ∧
      dictLookup g "physics" = some .none := by
  refine ⟨rfl, ⟨[("propname", .str p), ("model", .fn f),
    ("network", .obj .registrySelf), ("phase", .none), ("geometry", .none),
    ("physics", .none), ("regen_mode", .str "static")], rfl, rfl, rfl, rfl, rfl⟩⟩

/-- C3 counterexample: the claim says an explicit selection is executed in
Registry iteration order, not in `props` order.  With registry order
`['p.a', 'p.b']` and `props = ['p.b', 'p.a']` the write trace is
`['p.b', 'p.a']` — `props` order — and the master ends with
`p.b = 0 + 1 = 1` (the model of `p.b` read `p.a`'s stale value), whereas
running the same selection in the other order yields a different result. -/
theorem regenerate_selection_order_counterexample :
    ModelsDict.regenerate capp regC3 mC3 (.list ["p.b", "p.a"]) "inclusive"
      = ([("p.a", .int 5), ("p.b", .int 1)], ["p.b", "p.a"], Option.none) ∧
    regKeys regC3 = ["p.a", "p.b"] ∧
    ModelsDict.regenerate capp regC3 mC3 (.list ["p.b", "p.a"]) "inclusive"
      ≠ ModelsDict.regenerate capp regC3 mC3 (.list ["p.a", "p.b"]) "inclusive" :=
  ⟨rfl, rfl, by decide⟩

/-- C3 (amended): for an explicitly supplied selection in `'inclusive'` mode
that completes without an exception, `regenerate` invokes the selected
entries and writes into the master in the order the names appear in `props`
(skipping names absent from the registry) — the write trace equals `props`
filtered to registry keys, not the registry iteration order. -/
theorem regenerate_inclusive_runs_in_props_order {F : Type} (app : App F)
    (reg : Registry F) (m : Master F) (props : List String)
    (h : (ModelsDict.regenerate app reg m (.list props) "inclusive").2.2 = Option.none) :
    (ModelsDict.regenerate app reg m (.list props) "inclusive").2.1
      = props.filter (fun k => (dictLookup reg k).isSome) :=
  execLoop_trace_eq_filter app reg props m h

/-- Witness for `regenerate_inclusive_runs_in_props_order` at a concrete
selection (including one unknown name, which is skipped). -/
theorem regenerate_inclusive_runs_in_props_order_witness :
    (ModelsDict.regenerate capp regC3 mC3 (.list ["p.b", "p.a", "p.x"]) "inclusive").2.2
      = Option.none ∧
    (ModelsDict.regenerate capp regC3 mC3 (.list ["p.b", "p.a", "p.x"]) "inclusive").2.1
      = ["p.b", "p.a", "p.x"].filter (fun k => (dictLookup regC3 k).isSome) :=
  ⟨rfl, regenerate_inclusive_runs_in_props_order capp regC3 mC3 ["p.b", "p.a", "p.x"] rfl⟩

/-- C8 counterexample: the claim says item assignment forcibly sets
`propname = name` so that every stored entry's `propname` equals its key.
`__setitem__` initializes `propname` first and then runs
`temp.update(**model)`, so a `'propname'` key inside the supplied mapping
overrides it: storing `{'model': ..., 'propname': 'p.b'}` under key `'p.a'`
leaves an entry whose `propname` is `'p.b'`, breaking the invariant. -/
theorem setitem_propname_override_counterexample :
    (dictLookup (ModelsDict.setitem ([] : Registry CModel) "p.a"
        [("model", .fn (.constInt 1)), ("propname", .str "p.b")]) "p.a").bind
      (fun g => dictLookup g "propname") = some (.str "p.b") ∧
    (PyVal.str "p.b" : PyVal CModel) ≠ .str "p.a" :=
  ⟨rfl, by decide⟩

/-- C8 (amended): item assignment wraps the supplied mapping into a
`GenericModel` initialized with `propname = name` and `model = None` before
merging the mapping, so whenever the supplied mapping has no `'propname'` key
of its own — in particular for every entry stored through `add`, whose
keyword dict never contains `'propname'` — the stored entry's `propname`
equals its registry key. -/
theorem setitem_sets_propname_when_absent {F : Type} (reg : Registry F)
    (name : String) (spec : Entry F) (h : "propname" ∉ spec.map Prod.fst) :
    (dictLookup (ModelsDict.setitem reg name spec) name).bind
      (fun g => dictLookup g "propname") = some (.str name) := by
  unfold ModelsDict.setitem
  rw [dictLookup_dictSet_self, Option.some_bind, dictLookup_pyUpdate_not_mem _ _ _ h]
  rfl

/-- Witness for `setitem_sets_propname_when_absent` at a concrete spec. -/
theorem setitem_sets_propname_when_absent_witness :
    ("propname" ∉ ([("model", PyVal.fn (CModel.constInt 1))] : Entry CModel).map Prod.fst) ∧
    (dictLookup (ModelsDict.setitem ([] : Registry CModel) "p.a"
        [("model", .fn (.constInt 1))]) "p.a").bind
      (fun g => dictLookup g "propname") = some (.str "p.a") :=
  ⟨by decide, setitem_sets_propname_when_absent [] "p.a" _ (by decide)⟩

/-- C7: if invoking a selected model raises, the exception propagates
unmodified, no later selected key is regenerated, and the master keeps the
writes already performed for the earlier selected keys (no rollback): when
the keys before `k` complete without error producing master `m1` and trace
`tr1`, and `k`'s entry raises `e` on `m1`, the whole call returns exactly
`(m1, tr1, some e)`.  The registry itself is untouched — `regenerate` never
writes into it, which the embedding reflects by the registry being a
read-only argument of `ModelsDict.regenerate`. -/
theorem regenerate_error_propagates_partial_update {F : Type} (app : App F)
    (reg : Registry F) (m0 m1 : Master F) (props1 : List String) (k : String)
    (props2 : List String) (tr1 : List String) (gk : Entry F) (e : PyErr)
    (h1 : execLoop app reg props1 m0 = (m1, tr1, Option.none))
    (hk : dictLookup reg k = some gk)
    (he : GenericModel.regenerate app gk m1 = .error e) :
    ModelsDict.regenerate app reg m0 (.list (props1 ++ k :: props2)) "inclusive"
      = (m1, tr1, some e) := by
  rw [regenerate_list_inclusive_eq,
    execLoop_append app reg props1 (k :: props2) m0 m1 tr1 h1]
  simp [execLoop, hk, he]

/-- Witness for `regenerate_error_propagates_partial_update`: `p.a` succeeds
and its write is kept, `p.b` raises, `p.c` is never run. -/
theorem regenerate_error_propagates_partial_update_witness :
    execLoop capp regC7 ["p.a"] mC7 = (mC7a, ["p.a"], Option.none) ∧
    dictLookup regC7 "p.b" = some (entryOf "p.b" .fail "static") ∧
    GenericModel.regenerate capp (entryOf "p.b" .fail "static") mC7a = .error .valueError ∧
    ModelsDict.regenerate capp regC7 mC7 (.list ["p.a", "p.b", "p.c"]) "inclusive"
      = (mC7a, ["p.a"], some .valueError) :=
  ⟨rfl, rfl, rfl,
    regenerate_error_propagates_partial_update capp regC7 mC7 mC7a ["p.a"] "p.b"
      ["p.c"] ["p.a"] (entryOf "p.b" .fail "static") .valueError rfl rfl rfl⟩

/-- C9: `regenerate(props, mode='exclude')` with a name in `props` that is
not a registry key raises `ValueError` while building the complemented
selection (`temp.remove(item)` on line 112), before any model is invoked
and before any master write — the returned master is the input master and
the trace is empty.  In contrast, `'inclusive'` mode with the same unknown
name only logs a warning and skips it, returning with no exception and the
master unchanged. -/
theorem regenerate_exclude_unknown_raises {F : Type} (app : App F)
    (reg : Registry F) (m : Master F) (props : List String) (x : String)
    (hx : x ∈ props) (hnk : x ∉ regKeys reg) :
    ModelsDict.regenerate app reg m (.list props) "exclude"
      = (m, [], some .valueError) ∧
    ModelsDict.regenerate app reg m (.list [x]) "inclusive"
      = (m, [], Option.none) := by
  constructor
  · rw [regenerate_list_exclude_eq, removeFoldM_error props (regKeys reg) hx hnk]
  · rw [regenerate_list_inclusive_eq]
    simp [execLoop, dictLookup_eq_none_of_not_mem hnk]

/-- Witness for `regenerate_exclude_unknown_raises`: `p.q` is not a key of
`regC3`. -/
theorem regenerate_exclude_unknown_raises_witness :
    ("p.q" ∈ ["p.q", "p.a"]) ∧ ("p.q" ∉ regKeys regC3) ∧
    (ModelsDict.regenerate capp regC3 mC3 (.list ["p.q", "p.a"]) "exclude"
        = (mC3, [], some .valueError) ∧
      ModelsDict.regenerate capp regC3 mC3 (.list ["p.q"]) "inclusive"
        = (mC3, [], Option.none)) :=
  ⟨by decide, by decide,
    regenerate_exclude_unknown_raises capp regC3 mC3 ["p.q", "p.a"] "p.q"
      (by decide) (by decide)⟩

/-- C10: invoking a stored entry (its `__call__` or its per-entry
`regenerate`, both `self['model'](**self)`) passes the entry's entire
key/value set to the model as keyword arguments.  For every entry stored by
`add` (in any of the storing modes) the stored dict is exactly
`propname, model, network, phase, geometry, physics, regen_mode` followed by
the extra kwargs — the reserved keys `model` and `regen_mode`, the
`propname`, and the context keys with value `None` included — and both
invocation paths hand precisely this whole dict to the model, so the model
must accept all of these keyword arguments. -/
theorem stored_entry_passed_whole_to_model {F : Type} (app : App F)
    (reg : Registry F) (m : Master F) (p : String) (f : F) (mode : String)
    (kwargs : Entry F)
    (hmode : mode = "static" ∨ mode = "deferred" ∨ mode = "on_demand")
    (hnd : (kwargs.map Prod.fst).Nodup)
    (hdisj : ∀ q ∈ kwargs.map Prod.fst,
      q ∉ (["propname", "model", "network", "phase", "geometry", "physics",
            "regen_mode"] : List String)) :
    ∃ g, ModelsDict.add reg m p f mode kwargs = .ok (dictSet reg p g, m) ∧
      g = [("propname", .str p), ("model", .fn f), ("network", .obj .registrySelf),
           ("phase", .none), ("geometry", .none), ("physics", .none),
           ("regen_mode", .str mode)] ++ kwargs ∧
      ∀ m' : Master F, GenericModel.call app g m' = app f g m' ∧
        GenericModel.regenerate app g m' = app f g m' := by
  refine ⟨([("propname", PyVal.str p), ("model", PyVal.fn f),
    ("network", PyVal.obj ObjRef.registrySelf), ("phase", PyVal.none),
    ("geometry", PyVal.none), ("physics", PyVal.none),
    ("regen_mode", PyVal.str mode)] : Entry F) ++ kwargs,
    ?_, rfl, fun m' => ⟨rfl, rfl⟩⟩
  rw [add_store_eq reg m p f mode kwargs hmode,
    setitem_pyUpdate_base_eq p f mode kwargs hnd hdisj]

/-- Witness for `stored_entry_passed_whole_to_model` at a concrete
`'deferred'` add with one extra keyword argument. -/
theorem stored_entry_passed_whole_to_model_witness :
    (("deferred" : String) = "static" ∨ ("deferred" : String) = "deferred" ∨
      ("deferred" : String) = "on_demand") ∧
    ((([("seed", PyVal.int 7)] : Entry CModel).map Prod.fst).Nodup) ∧
    (∀ q ∈ ([("seed", PyVal.int 7)] : Entry CModel).map Prod.fst,
      q ∉ (["propname", "model", "network", "phase", "geometry", "physics",
            "regen_mode"] : List String)) ∧
    ∃ g, ModelsDict.add ([] : Registry CModel) mC3 "p.s" (CModel.constInt 4)
          "deferred" [("seed", .int 7)] = .ok (dictSet [] "p.s" g, mC3) ∧
      g = [("propname", .str "p.s"), ("model", .fn (.constInt 4)),
           ("network", .obj .registrySelf), ("phase", .none), ("geometry", .none),
           ("physics", .none), ("regen_mode", .str "deferred")]
          ++ [("seed", .int 7)] ∧
      ∀ m' : Master CModel, GenericModel.call capp g m' = capp (.constInt 4) g m' ∧
        GenericModel.regenerate capp g m' = capp (.constInt 4) g m' :=
  ⟨by decide, by decide, by decide,
    stored_entry_passed_whole_to_model capp [] mC3 "p.s" (.constInt 4) "deferred"
      [("seed", .int 7)] (by decide) (by decide) (by decide)⟩

/-- C5: for every `new_order` whose keys are existing registry property
names (a Python dict, so the keys are distinct), `reorder` never raises —
including when `new_order` carries tied target indices or indices out of
range, which `list.insert` clamps into range — and every key, named in
`new_order` or not, is still present in the resulting registry. -/
theorem reorder_never_raises_keeps_keys {F : Type} (reg : Registry F)
    (no : List (String × Int)) (hnd : (no.map Prod.fst).Nodup)
    (hex : ∀ q ∈ no.map Prod.fst, q ∈ regKeys reg) :
    ∃ r, ModelsDict.reorder reg no = .ok r ∧
      ∀ y, y ∈ regKeys r ↔ y ∈ regKeys reg := by
  obtain ⟨l1, hfold, hsub⟩ := removeFoldM_ok no (regKeys reg) hnd hex
  have hmem : ∀ k ∈ (invDict no).foldl (fun acc q => pyInsertIdx acc q.1 q.2) l1,
      k ∈ regKeys reg := by
    intro k hk
    rcases insertFold_mem (invDict no) l1 hk with h | h
    · exact hsub k h
    · exact hex k (invDict_snd_mem h)
  obtain ⟨r, hr, hiff⟩ := moveFoldM_ok _ reg hmem
  refine ⟨r, ?_, hiff⟩
  unfold ModelsDict.reorder
  rw [hfold]
  exact hr

/-- Witness for `reorder_never_raises_keeps_keys` with tied target indices
`5, 5` and the out-of-range indices `5` and `-99` on a three-entry
registry. -/
theorem reorder_never_raises_keeps_keys_witness :
    ((([("pore.seed", (5 : Int)), ("throat.seed", 5), ("throat.length", -99)]
        : List (String × Int)).map Prod.fst).Nodup) ∧
    (∀ q ∈ ([("pore.seed", (5 : Int)), ("throat.seed", 5), ("throat.length", -99)]
        : List (String × Int)).map Prod.fst, q ∈ regKeys regC4) ∧
    ∃ r, ModelsDict.reorder regC4
          [("pore.seed", 5), ("throat.seed", 5), ("throat.length", -99)] = .ok r ∧
      ∀ y, y ∈ regKeys r ↔ y ∈ regKeys regC4 :=
  ⟨by decide, by decide,
    reorder_never_raises_keeps_keys regC4 _ (by decide) (by decide)⟩
